import Mathlib

/-!
Verification of the `eui` library (`src/lib.rs`): EUI-48 / EUI-64 address
types, their three textual formats and the parser built on the `hex` crate.

Rust strings are modelled as `List Char`; `hex::decode` consumes the UTF-8
bytes of the string, so the embedding carries an explicit UTF-8 encoder.
Machine bytes (`u8`) are modelled as `Nat` together with explicit `< 256`
bounds in the theorems.
-/

/-- The error enum of `src/lib.rs` (lines 8-12). -/
inductive Error where
  | InvalidHexCharacter
  | InvalidStringLength
  | OddLength
deriving DecidableEq

/-- Model of `hex::FromHexError` from the `hex` crate (v0.4), the error type of
`hex::decode`.  `InvalidHexCharacter` carries the offending byte value and
its index, as in the crate. -/
inductive FromHexError where
  | InvalidHexCharacter (c : Nat) (index : Nat)
  | InvalidStringLength
  | OddLength
deriving DecidableEq

/-- Model of `impl From<hex::FromHexError> for Error` (lines 14-24): drop the payload,
map each variant to its namesake. -/
def Error.ofHexError : FromHexError → Error
  | .InvalidHexCharacter _ _ => .InvalidHexCharacter
  | .InvalidStringLength => .InvalidStringLength
  | .OddLength => .OddLength

/-- Model of `pub struct EUI48([u8; 6])`.  The `u8` range and the length 6 are stated
as explicit hypotheses in the theorems. -/
structure EUI48 where
  bytes : List Nat
deriving DecidableEq

/-- Model of `pub struct EUI64([u8; 8])`. -/
structure EUI64 where
  bytes : List Nat
deriving DecidableEq

/-- The three separator characters stripped by `try_from`:
`'.'` (code 46), `':'` (code 58), `'-'` (code 45). -/
def isSeparator (c : Char) : Bool :=
  c.toNat == 46 || c.toNat == 58 || c.toNat == 45

/-- Model of `s.replace(&['.', ':', '-'][..], "")`: remove every occurrence of the
three separator characters. -/
def stripSeparators (s : List Char) : List Char :=
  s.filter (fun c => !isSeparator c)

/-- UTF-8 encoding of a code point (the bytes a Rust `String` stores). -/
def utf8Enc (v : Nat) : List Nat :=
  if v < 128 then [v]
  else if v < 2048 then [192 + v / 64, 128 + v % 64]
  else if v < 65536 then [224 + v / 4096, 128 + v / 64 % 64, 128 + v % 64]
  else [240 + v / 262144, 128 + v / 4096 % 64, 128 + v / 64 % 64, 128 + v % 64]

/-- UTF-8 encoding of one character. -/
def utf8EncodeChar (c : Char) : List Nat := utf8Enc c.toNat

/-- The UTF-8 byte sequence of a string, as `hex::decode` receives it. -/
def stringBytes : List Char → List Nat
  | [] => []
  | c :: cs => utf8EncodeChar c ++ stringBytes cs

/-- Model of `val` from the `hex` crate: the value of one hex-digit byte
(`b'A'..=b'F'`, `b'a'..=b'f'`, `b'0'..=b'9'`), or failure. -/
def hexVal (b : Nat) : Option Nat :=
  if 65 ≤ b ∧ b ≤ 70 then some (b - 65 + 10)
  else if 97 ≤ b ∧ b ≤ 102 then some (b - 97 + 10)
  else if 48 ≤ b ∧ b ≤ 57 then some (b - 48)
  else none

/-- The pair-decoding loop of `hex::decode`: bytes are consumed two at a
time, left to right; the first invalid byte wins and is reported with its
index.  The one-element case is unreachable because the crate checks the
length parity first; it is mapped to `OddLength`. -/
def decodePairsFrom (i : Nat) : List Nat → Except FromHexError (List Nat)
  | [] => .ok []
  | [_] => .error .OddLength
  | a :: b :: rest =>
    match hexVal a with
    | none => .error (.InvalidHexCharacter a i)
    | some hi =>
      match hexVal b with
      | none => .error (.InvalidHexCharacter b (i + 1))
      | some lo => (decodePairsFrom (i + 2) rest).map (fun v => ((hi <<< 4) ||| lo) :: v)

/-- Model of `hex::decode` (v0.4): reject odd byte counts up front, then decode the
pairs left to right. -/
def hexDecode (bs : List Nat) : Except FromHexError (List Nat) :=
  if bs.length % 2 ≠ 0 then .error .OddLength else decodePairsFrom 0 bs

/-- The shared body of the two `TryFrom<&str>` impls (lines 72-102) with the
target byte count `n` abstracted: strip separators, hex-decode the UTF-8
bytes (mapping the crate error through `Error::from`), then require exactly
`n` decoded bytes. -/
def parseEUI (n : Nat) (s : List Char) : Except Error (List Nat) :=
  match hexDecode (stringBytes (stripSeparators s)) with
  | .error e => .error (Error.ofHexError e)
  | .ok bytes => if bytes.length ≠ n then .error .InvalidStringLength else .ok bytes

/-- Model of `impl TryFrom<&str> for EUI48` (lines 72-86): target length 6. -/
def EUI48.try_from (s : List Char) : Except Error EUI48 :=
  (parseEUI 6 s).map EUI48.mk

/-- Model of `impl TryFrom<&str> for EUI64` (lines 88-102): target length 8. -/
def EUI64.try_from (s : List Char) : Except Error EUI64 :=
  (parseEUI 8 s).map EUI64.mk

/-- One upper-case hex digit, `0..9` then `A..F` (codes 48-57, 65-70). -/
def hexDigit (n : Nat) : Char :=
  if n < 10 then Char.ofNat (48 + n) else Char.ofNat (55 + n)

/-- Model of `format!` with the `:02X` spec for a `u8`: exactly two upper-case hex digits. -/
def byteHex (b : Nat) : List Char :=
  [hexDigit (b / 16), hexDigit (b % 16)]

/-- Model of `to_canonical_fmt` (lines 29-37): fold over the bytes, joining the
two-digit renderings with `'-'`. -/
def EUI.to_canonical_fmt (bytes : List Nat) : List Char :=
  bytes.foldl (fun acc b => if acc.isEmpty then byteHex b else acc ++ '-' :: byteHex b) []

/-- Model of `to_colon_fmt` (lines 39-47): same fold with `':'`. -/
def EUI.to_colon_fmt (bytes : List Nat) : List Char :=
  bytes.foldl (fun acc b => if acc.isEmpty then byteHex b else acc ++ ':' :: byteHex b) []

/-- Model of `slice::chunks(2)`: consecutive chunks of two, a final singleton when
the length is odd. -/
def chunks2 : List Nat → List (List Nat)
  | [] => []
  | [a] => [[a]]
  | a :: b :: rest => [a, b] :: chunks2 rest

/-- Model of `to_dot_fmt` (lines 49-57): fold over the 2-byte chunks, joining the
four-digit groups with `'.'`.  The accesses `new[0]` and `new[1]` panic in
Rust when out of bounds; they are modelled by `Option` indexing, so the
result is `none` exactly when some chunk lacks a second element. -/
def EUI.to_dot_fmt (bytes : List Nat) : Option (List Char) :=
  (chunks2 bytes).foldl
    (fun acc chunk => do
      let s ← acc
      let b0 ← chunk[0]?
      let b1 ← chunk[1]?
      pure (if s.isEmpty then byteHex b0 ++ byteHex b1
            else s ++ '.' :: (byteHex b0 ++ byteHex b1)))
    (some [])

/-- The bare hex rendering of a byte sequence: two digits per byte, no
separators (what every format reduces to after separator stripping). -/
def hexChars : List Nat → List Char
  | [] => []
  | b :: bs => byteHex b ++ hexChars bs

/-- The tail of a separator-joined format: each byte preceded by `sep`. -/
def sepHexChars (sep : Char) : List Nat → List Char
  | [] => []
  | b :: bs => sep :: byteHex b ++ sepHexChars sep bs

/-- The UTF-8 codes of `hexChars`: two hex-digit codes per byte. -/
def hexCodes : List Nat → List Nat
  | [] => []
  | b :: bs => (hexDigit (b / 16)).toNat :: (hexDigit (b % 16)).toNat :: hexCodes bs

/-- Replace a lowercase hex letter `a`-`f` (codes 97-102) by its uppercase
counterpart; leave every other character unchanged. -/
def hexUpChar (c : Char) : Char :=
  if 97 ≤ c.toNat ∧ c.toNat ≤ 102 then Char.ofNat (c.toNat - 32) else c

/-- Replace an uppercase hex letter `A`-`F` (codes 65-70) by its lowercase
counterpart; leave every other character unchanged. -/
def hexDownChar (c : Char) : Char :=
  if 65 ≤ c.toNat ∧ c.toNat ≤ 70 then Char.ofNat (c.toNat + 32) else c

/-- Action of `hexUpChar` at the byte level. -/
def byteUp (b : Nat) : Nat :=
  if 97 ≤ b ∧ b ≤ 102 then b - 32 else b

/-- Action of `hexDownChar` at the byte level. -/
def byteDown (b : Nat) : Nat :=
  if 65 ≤ b ∧ b ≤ 70 then b + 32 else b

/-- A character that `hexVal` accepts: `[0-9a-fA-F]`. -/
def isHexChar (c : Char) : Bool :=
  (hexVal c.toNat).isSome

/-! ### Basic lemmas about digits, hex values and UTF-8 bytes -/

/-- Two-step list induction, matching the pair-wise recursion of the decoder. -/
theorem twoStepList {α : Type} {P : List α → Prop} (h0 : P []) (h1 : ∀ a, P [a])
    (h2 : ∀ a b l, P l → P (a :: b :: l)) : ∀ l, P l
  | [] => h0
  | [a] => h1 a
  | a :: b :: l => h2 a b l (twoStepList h0 h1 h2 l)

theorem hexVal_lt {b v : Nat} (h : hexVal b = some v) : v < 16 := by
  unfold hexVal at h
  split_ifs at h <;> simp_all <;> omega

theorem hexVal_isSome_lt {b : Nat} (h : (hexVal b).isSome = true) : b < 128 := by
  unfold hexVal at h
  split_ifs at h <;> simp_all <;> omega

theorem hexVal_none_of_ge {b : Nat} (h : 103 ≤ b) : hexVal b = none := by
  unfold hexVal
  split_ifs <;> first | rfl | (exfalso; omega)

theorem combineVal : ∀ hi < 16, ∀ lo < 16, (hi <<< 4) ||| lo = 16 * hi + lo := by decide

theorem hexDigit_lt128 : ∀ x < 16, (hexDigit x).toNat < 128 := by decide

theorem hexVal_hexDigit : ∀ x < 16, hexVal ((hexDigit x).toNat) = some x := by decide

theorem hexDigit_not_sep : ∀ x < 16, isSeparator (hexDigit x) = false := by decide

theorem utf8Enc_small {v : Nat} (h : v < 128) : utf8Enc v = [v] := by
  simp [utf8Enc, h]

theorem utf8Enc_ne_nil (v : Nat) : utf8Enc v ≠ [] := by
  unfold utf8Enc
  split_ifs <;> simp

theorem utf8Enc_ge {v : Nat} (h : 128 ≤ v) : ∀ b ∈ utf8Enc v, 128 ≤ b := by
  unfold utf8Enc
  split_ifs <;> intro b hb <;> simp at hb <;> omega

theorem stringBytes_append (l1 l2 : List Char) :
    stringBytes (l1 ++ l2) = stringBytes l1 ++ stringBytes l2 := by
  induction l1 with
  | nil => rfl
  | cons c cs ih => simp [stringBytes, ih]

/-! ### Behaviour of the pair decoder -/

theorem decodePairs_ok (bs : List Nat) :
    ∀ i, (∀ b ∈ bs, (hexVal b).isSome = true) → bs.length % 2 = 0 →
      ∃ v, decodePairsFrom i bs = .ok v ∧ v.length = bs.length / 2 ∧ ∀ x ∈ v, x < 256 := by
  induction bs using twoStepList with
  | h0 => intro i _ _; exact ⟨[], rfl, rfl, by simp⟩
  | h1 a => intro i _ he; simp at he
  | h2 a b l ih =>
    intro i hs he
    have ha : (hexVal a).isSome = true := hs a (by simp)
    have hb : (hexVal b).isSome = true := hs b (by simp)
    rw [Option.isSome_iff_exists] at ha hb
    obtain ⟨hi, hha⟩ := ha
    obtain ⟨lo, hhb⟩ := hb
    have he' : l.length % 2 = 0 := by simp [List.length_cons] at he; omega
    obtain ⟨v, hv, hlen, hlt⟩ := ih (i + 2) (fun x hx => hs x (by simp [hx])) he'
    refine ⟨((hi <<< 4) ||| lo) :: v, ?_, ?_, ?_⟩
    · simp [decodePairsFrom, hha, hhb, hv, Except.map]
    · simp [List.length_cons, hlen]; omega
    · intro x hx
      rcases List.mem_cons.mp hx with rfl | hx
      · rw [combineVal hi (hexVal_lt hha) lo (hexVal_lt hhb)]
        have := hexVal_lt hha
        have := hexVal_lt hhb
        omega
      · exact hlt x hx

theorem decodePairs_ok_inv (bs : List Nat) :
    ∀ i v, decodePairsFrom i bs = .ok v →
      (∀ b ∈ bs, (hexVal b).isSome = true) ∧ bs.length % 2 = 0 ∧
        v.length = bs.length / 2 ∧ ∀ x ∈ v, x < 256 := by
  induction bs using twoStepList with
  | h0 =>
    intro i v h
    simp [decodePairsFrom] at h
    subst h
    simp
  | h1 a => intro i v h; simp [decodePairsFrom] at h
  | h2 a b l ih =>
    intro i v h
    simp only [decodePairsFrom] at h
    cases hha : hexVal a with
    | none => rw [hha] at h; simp at h
    | some hi =>
      rw [hha] at h
      cases hhb : hexVal b with
      | none => rw [hhb] at h; simp at h
      | some lo =>
        rw [hhb] at h
        cases hrest : decodePairsFrom (i + 2) l with
        | error e => rw [hrest] at h; simp [Except.map] at h
        | ok w =>
          rw [hrest] at h
          simp [Except.map] at h
          obtain ⟨hall, heven, hlen, hlt⟩ := ih (i + 2) w hrest
          constructor
          · intro x hx
            rcases List.mem_cons.mp hx with rfl | hx
            · simp [hha]
            · rcases List.mem_cons.mp hx with rfl | hx
              · simp [hhb]
              · exact hall x hx
          refine ⟨by simp [List.length_cons]; omega, ?_, ?_⟩
          · subst h; simp [List.length_cons, hlen]; omega
          · subst h
            intro x hx
            rcases List.mem_cons.mp hx with rfl | hx
            · rw [combineVal hi (hexVal_lt hha) lo (hexVal_lt hhb)]
              have := hexVal_lt hha
              have := hexVal_lt hhb
              omega
            · exact hlt x hx

theorem decodePairs_err_hex (bs : List Nat) :
    ∀ i, bs.length % 2 = 0 → (∃ b ∈ bs, hexVal b = none) →
      ∃ c j, decodePairsFrom i bs = .error (.InvalidHexCharacter c j) := by
  induction bs using twoStepList with
  | h0 => intro i _ hx; simp at hx
  | h1 a => intro i he _; simp at he
  | h2 a b l ih =>
    intro i he hx
    cases hha : hexVal a with
    | none => exact ⟨a, i, by simp [decodePairsFrom, hha]⟩
    | some hi =>
      cases hhb : hexVal b with
      | none => exact ⟨b, i + 1, by simp [decodePairsFrom, hha, hhb]⟩
      | some lo =>
        have he' : l.length % 2 = 0 := by simp [List.length_cons] at he; omega
        have hx' : ∃ x ∈ l, hexVal x = none := by
          obtain ⟨x, hmem, hnone⟩ := hx
          rcases List.mem_cons.mp hmem with rfl | hmem
          · rw [hha] at hnone; exact absurd hnone (by simp)
          · rcases List.mem_cons.mp hmem with rfl | hmem
            · rw [hhb] at hnone; exact absurd hnone (by simp)
            · exact ⟨x, hmem, hnone⟩
        obtain ⟨c, j, hcj⟩ := ih (i + 2) he' hx'
        exact ⟨c, j, by simp [decodePairsFrom, hha, hhb, hcj, Except.map]⟩

theorem decodePairs_err_inv (bs : List Nat) :
    ∀ i e, decodePairsFrom i bs = .error e →
      (∃ c j, e = .InvalidHexCharacter c j) ∨ e = .OddLength := by
  induction bs using twoStepList with
  | h0 => intro i e h; simp [decodePairsFrom] at h
  | h1 a => intro i e h; simp [decodePairsFrom] at h; exact Or.inr h.symm
  | h2 a b l ih =>
    intro i e h
    simp only [decodePairsFrom] at h
    cases hha : hexVal a with
    | none =>
      rw [hha] at h
      simp at h
      exact Or.inl ⟨a, i, h.symm⟩
    | some hi =>
      rw [hha] at h
      cases hhb : hexVal b with
      | none =>
        rw [hhb] at h
        simp at h
        exact Or.inl ⟨b, i + 1, h.symm⟩
      | some lo =>
        rw [hhb] at h
        cases hrest : decodePairsFrom (i + 2) l with
        | error e' =>
          rw [hrest] at h
          simp [Except.map] at h
          subst h
          exact ih (i + 2) _ hrest
        | ok w => rw [hrest] at h; simp [Except.map] at h

theorem hexDecode_odd {bs : List Nat} (h : bs.length % 2 = 1) :
    hexDecode bs = .error .OddLength := by
  unfold hexDecode
  rw [if_pos (by omega)]

theorem hexDecode_even {bs : List Nat} (h : bs.length % 2 = 0) :
    hexDecode bs = decodePairsFrom 0 bs := by
  unfold hexDecode
  rw [if_neg (by omega)]

theorem hexDecode_ok_inv {bs v : List Nat} (h : hexDecode bs = .ok v) :
    (∀ b ∈ bs, (hexVal b).isSome = true) ∧ bs.length % 2 = 0 ∧
      v.length = bs.length / 2 ∧ ∀ x ∈ v, x < 256 := by
  unfold hexDecode at h
  split at h
  · simp at h
  · exact decodePairs_ok_inv bs 0 v h

theorem hexDecode_ne_isl (bs : List Nat) :
    hexDecode bs ≠ .error .InvalidStringLength := by
  unfold hexDecode
  split
  · simp
  · intro h
    rcases decodePairs_err_inv bs 0 _ h with ⟨c, j, hcj⟩ | hodd
    · exact FromHexError.noConfusion hcj
    · exact FromHexError.noConfusion hodd

/-! ### Round-trip: formats strip back to the bare digits and decode -/

theorem stringBytes_hexChars (bytes : List Nat) (h : ∀ b ∈ bytes, b < 256) :
    stringBytes (hexChars bytes) = hexCodes bytes := by
  induction bytes with
  | nil => rfl
  | cons b bs ih =>
    have hb : b < 256 := h b (by simp)
    have h1 : (hexDigit (b / 16)).toNat < 128 := hexDigit_lt128 _ (by omega)
    have h2 : (hexDigit (b % 16)).toNat < 128 := hexDigit_lt128 _ (by omega)
    simp [hexChars, byteHex, stringBytes, hexCodes, utf8EncodeChar,
      utf8Enc_small h1, utf8Enc_small h2, ih (fun x hx => h x (by simp [hx]))]

theorem hexCodes_length (bytes : List Nat) :
    (hexCodes bytes).length = 2 * bytes.length := by
  induction bytes with
  | nil => rfl
  | cons b bs ih => simp [hexCodes, ih]; omega

theorem decode_hexCodes (bytes : List Nat) :
    ∀ i, (∀ b ∈ bytes, b < 256) → decodePairsFrom i (hexCodes bytes) = .ok bytes := by
  induction bytes with
  | nil => intro i _; rfl
  | cons b bs ih =>
    intro i h
    have hb : b < 256 := h b (by simp)
    have h1 : hexVal ((hexDigit (b / 16)).toNat) = some (b / 16) :=
      hexVal_hexDigit _ (by omega)
    have h2 : hexVal ((hexDigit (b % 16)).toNat) = some (b % 16) :=
      hexVal_hexDigit _ (by omega)
    have hcomb : ((b / 16) <<< 4) ||| (b % 16) = b := by
      rw [combineVal _ (by omega) _ (by omega)]; omega
    simp [hexCodes, decodePairsFrom, h1, h2,
      ih (i + 2) (fun x hx => h x (by simp [hx])), Except.map, hcomb]

theorem parse_of_strip {n : Nat} {bytes : List Nat} {s : List Char}
    (h1 : ∀ b ∈ bytes, b < 256) (h2 : bytes.length = n)
    (h3 : stripSeparators s = hexChars bytes) : parseEUI n s = .ok bytes := by
  have hsb : stringBytes (stripSeparators s) = hexCodes bytes := by
    rw [h3]; exact stringBytes_hexChars bytes h1
  have heven : (hexCodes bytes).length % 2 = 0 := by rw [hexCodes_length]; omega
  have hdec : hexDecode (stringBytes (stripSeparators s)) = .ok bytes := by
    rw [hsb, hexDecode_even heven]
    exact decode_hexCodes bytes 0 h1
  simp [parseEUI, hdec, h2]

/-! ### Separator stripping of the three formats -/

theorem strip_cons_sep {c : Char} (hc : isSeparator c = true) (l : List Char) :
    stripSeparators (c :: l) = stripSeparators l := by
  simp [stripSeparators, List.filter_cons, hc]

theorem strip_append (l1 l2 : List Char) :
    stripSeparators (l1 ++ l2) = stripSeparators l1 ++ stripSeparators l2 := by
  simp [stripSeparators, List.filter_append]

theorem strip_byteHex {b : Nat} (h : b < 256) :
    stripSeparators (byteHex b) = byteHex b := by
  have h1 : isSeparator (hexDigit (b / 16)) = false := hexDigit_not_sep _ (by omega)
  have h2 : isSeparator (hexDigit (b % 16)) = false := hexDigit_not_sep _ (by omega)
  simp [stripSeparators, byteHex, List.filter_cons, h1, h2]

theorem strip_sepHex (sep : Char) (hsep : isSeparator sep = true) (bytes : List Nat)
    (h : ∀ b ∈ bytes, b < 256) :
    stripSeparators (sepHexChars sep bytes) = hexChars bytes := by
  induction bytes with
  | nil => rfl
  | cons b bs ih =>
    have hb : b < 256 := h b (by simp)
    simp only [sepHexChars, hexChars]
    rw [strip_append, strip_cons_sep hsep, strip_byteHex hb,
      ih (fun x hx => h x (by simp [hx]))]

theorem foldFmt_ne {sep : Char} (bytes : List Nat) :
    ∀ acc, acc ≠ [] →
      List.foldl (fun acc b => if acc.isEmpty then byteHex b else acc ++ sep :: byteHex b)
        acc bytes = acc ++ sepHexChars sep bytes := by
  induction bytes with
  | nil => intro acc _; simp [sepHexChars]
  | cons b bs ih =>
    intro acc hacc
    have hne : acc.isEmpty = false := by
      cases acc with
      | nil => exact absurd rfl hacc
      | cons x xs => rfl
    rw [List.foldl_cons]
    simp only [hne, Bool.false_eq_true, if_false]
    rw [ih (acc ++ sep :: byteHex b) (by simp)]
    simp [sepHexChars]

theorem strip_canonical (bytes : List Nat) (h : ∀ b ∈ bytes, b < 256) :
    stripSeparators (EUI.to_canonical_fmt bytes) = hexChars bytes := by
  cases bytes with
  | nil => rfl
  | cons b bs =>
    have hb : b < 256 := h b (by simp)
    unfold EUI.to_canonical_fmt
    rw [List.foldl_cons]
    simp only [List.isEmpty_nil, if_true]
    rw [foldFmt_ne bs (byteHex b) (by simp [byteHex])]
    rw [strip_append, strip_byteHex hb,
      strip_sepHex _ (by decide) bs (fun x hx => h x (by simp [hx]))]
    rfl

theorem strip_colon (bytes : List Nat) (h : ∀ b ∈ bytes, b < 256) :
    stripSeparators (EUI.to_colon_fmt bytes) = hexChars bytes := by
  cases bytes with
  | nil => rfl
  | cons b bs =>
    have hb : b < 256 := h b (by simp)
    unfold EUI.to_colon_fmt
    rw [List.foldl_cons]
    simp only [List.isEmpty_nil, if_true]
    rw [foldFmt_ne bs (byteHex b) (by simp [byteHex])]
    rw [strip_append, strip_byteHex hb,
      strip_sepHex _ (by decide) bs (fun x hx => h x (by simp [hx]))]
    rfl

/-! ### Parse outcomes characterised by the stripped byte string -/

theorem parse_odd {n : Nat} {s : List Char}
    (h : (stringBytes (stripSeparators s)).length % 2 = 1) :
    parseEUI n s = .error .OddLength := by
  simp [parseEUI, hexDecode_odd h, Error.ofHexError]

theorem parse_hexerr {n : Nat} {s : List Char}
    (he : (stringBytes (stripSeparators s)).length % 2 = 0)
    (hx : ∃ b ∈ stringBytes (stripSeparators s), hexVal b = none) :
    parseEUI n s = .error .InvalidHexCharacter := by
  obtain ⟨c, j, hcj⟩ := decodePairs_err_hex _ 0 he hx
  simp [parseEUI, hexDecode_even he, hcj, Error.ofHexError]

theorem parse_of_decode_ok (n : Nat) {s : List Char} {v : List Nat}
    (h : hexDecode (stringBytes (stripSeparators s)) = .ok v) :
    parseEUI n s = if v.length ≠ n then .error .InvalidStringLength else .ok v := by
  simp [parseEUI, h]

theorem parse_isl_iff {n : Nat} {s : List Char} :
    parseEUI n s = .error .InvalidStringLength ↔
      ∃ v, hexDecode (stringBytes (stripSeparators s)) = .ok v ∧ v.length ≠ n := by
  constructor
  · intro h
    cases hd : hexDecode (stringBytes (stripSeparators s)) with
    | error e =>
      have hp : parseEUI n s = .error (Error.ofHexError e) := by simp [parseEUI, hd]
      rw [hp] at h
      simp at h
      cases e with
      | InvalidHexCharacter c j => exact absurd h (by simp [Error.ofHexError])
      | InvalidStringLength => exact absurd hd (hexDecode_ne_isl _)
      | OddLength => exact absurd h (by simp [Error.ofHexError])
    | ok v =>
      rw [parse_of_decode_ok n hd] at h
      by_cases hv : v.length = n
      · simp [hv] at h
      · exact ⟨v, rfl, hv⟩
  · rintro ⟨v, hd, hne⟩
    simp [parseEUI, hd, hne]

/-! ### Bridging bytes and characters for all-hex strings -/

theorem isHexChar_lt {c : Char} (h : isHexChar c = true) : c.toNat < 128 := by
  unfold isHexChar at h
  exact hexVal_isSome_lt h

theorem stringBytes_ascii (l : List Char) (h : ∀ c ∈ l, c.toNat < 128) :
    stringBytes l = l.map Char.toNat := by
  induction l with
  | nil => rfl
  | cons c cs ih =>
    have hc : c.toNat < 128 := h c (by simp)
    simp [stringBytes, utf8EncodeChar, utf8Enc_small hc,
      ih (fun x hx => h x (by simp [hx]))]

theorem allHex_chars (l : List Char)
    (h : ∀ b ∈ stringBytes l, (hexVal b).isSome = true) :
    ∀ c ∈ l, isHexChar c = true := by
  induction l with
  | nil => simp
  | cons c cs ih =>
    have hsplit : ∀ b ∈ utf8EncodeChar c, (hexVal b).isSome = true := by
      intro b hb
      exact h b (by simp [stringBytes, hb])
    have htail : ∀ b ∈ stringBytes cs, (hexVal b).isSome = true := by
      intro b hb
      exact h b (by simp [stringBytes, hb])
    intro x hx
    rcases List.mem_cons.mp hx with rfl | hx
    · by_cases hlt : x.toNat < 128
      · have : (hexVal x.toNat).isSome = true := by
          apply hsplit
          simp [utf8EncodeChar, utf8Enc_small hlt]
        exact this
      · exfalso
        obtain ⟨b, hb⟩ := List.exists_mem_of_ne_nil _ (utf8Enc_ne_nil x.toNat)
        have hge : 128 ≤ b := utf8Enc_ge (by omega) b hb
        have := hsplit b (by simpa [utf8EncodeChar] using hb)
        rw [hexVal_none_of_ge (by omega)] at this
        simp at this
    · exact ih htail x hx

/-! ### Fixed-length destructuring -/

theorem len6_ex (l : List Nat) (h : l.length = 6) :
    ∃ a b c d e f, l = [a, b, c, d, e, f] := by
  rcases l with _ | ⟨a, l⟩
  · simp only [List.length_nil] at h; omega
  rcases l with _ | ⟨b, l⟩
  · simp only [List.length_cons, List.length_nil] at h; omega
  rcases l with _ | ⟨c, l⟩
  · simp only [List.length_cons, List.length_nil] at h; omega
  rcases l with _ | ⟨d, l⟩
  · simp only [List.length_cons, List.length_nil] at h; omega
  rcases l with _ | ⟨e, l⟩
  · simp only [List.length_cons, List.length_nil] at h; omega
  rcases l with _ | ⟨f, l⟩
  · simp only [List.length_cons, List.length_nil] at h; omega
  rcases l with _ | ⟨g, l⟩
  · exact ⟨a, b, c, d, e, f, rfl⟩
  · simp only [List.length_cons] at h; omega

theorem len8_ex (l : List Nat) (h : l.length = 8) :
    ∃ a b c d e f g k, l = [a, b, c, d, e, f, g, k] := by
  rcases l with _ | ⟨a, l⟩
  · simp only [List.length_nil] at h; omega
  rcases l with _ | ⟨b, l⟩
  · simp only [List.length_cons, List.length_nil] at h; omega
  rcases l with _ | ⟨c, l⟩
  · simp only [List.length_cons, List.length_nil] at h; omega
  rcases l with _ | ⟨d, l⟩
  · simp only [List.length_cons, List.length_nil] at h; omega
  rcases l with _ | ⟨e, l⟩
  · simp only [List.length_cons, List.length_nil] at h; omega
  rcases l with _ | ⟨f, l⟩
  · simp only [List.length_cons, List.length_nil] at h; omega
  rcases l with _ | ⟨g, l⟩
  · simp only [List.length_cons, List.length_nil] at h; omega
  rcases l with _ | ⟨k, l⟩
  · simp only [List.length_cons, List.length_nil] at h; omega
  rcases l with _ | ⟨m, l⟩
  · exact ⟨a, b, c, d, e, f, g, k, rfl⟩
  · simp only [List.length_cons] at h; omega

/-! ### Concrete shape of the dot format on 6 and 8 bytes -/

theorem to_dot_six (b0 b1 b2 b3 b4 b5 : Nat) :
    EUI.to_dot_fmt [b0, b1, b2, b3, b4, b5] =
      some (((byteHex b0 ++ byteHex b1) ++ '.' :: (byteHex b2 ++ byteHex b3)) ++
        '.' :: (byteHex b4 ++ byteHex b5)) := by
  simp [EUI.to_dot_fmt, chunks2, byteHex]

theorem to_dot_eight (b0 b1 b2 b3 b4 b5 b6 b7 : Nat) :
    EUI.to_dot_fmt [b0, b1, b2, b3, b4, b5, b6, b7] =
      some ((((byteHex b0 ++ byteHex b1) ++ '.' :: (byteHex b2 ++ byteHex b3)) ++
        '.' :: (byteHex b4 ++ byteHex b5)) ++ '.' :: (byteHex b6 ++ byteHex b7)) := by
  simp [EUI.to_dot_fmt, chunks2, byteHex]

/-! ### Case mapping commutes with stripping, encoding and decoding -/

theorem strip_idem (s : List Char) :
    stripSeparators (stripSeparators s) = stripSeparators s := by
  simp [stripSeparators, List.filter_filter]

theorem strip_map {f : Char → Char} (hf : ∀ c, isSeparator (f c) = isSeparator c)
    (l : List Char) : stripSeparators (l.map f) = (stripSeparators l).map f := by
  induction l with
  | nil => rfl
  | cons c cs ih =>
    simp only [List.map_cons, stripSeparators, List.filter_cons] at *
    rw [hf c]
    cases h : isSeparator c with
    | true => simpa [h] using ih
    | false => simpa [h] using ih

theorem upChar_toNat {c : Char} (h : 97 ≤ c.toNat ∧ c.toNat ≤ 102) :
    (hexUpChar c).toNat = c.toNat - 32 := by
  rw [hexUpChar, if_pos h]
  have h1 := h.1
  have h2 := h.2
  generalize c.toNat = v at h1 h2 ⊢
  interval_cases v <;> decide

theorem downChar_toNat {c : Char} (h : 65 ≤ c.toNat ∧ c.toNat ≤ 70) :
    (hexDownChar c).toNat = c.toNat + 32 := by
  rw [hexDownChar, if_pos h]
  have h1 := h.1
  have h2 := h.2
  generalize c.toNat = v at h1 h2 ⊢
  interval_cases v <;> decide

theorem isSeparator_toNat (c d : Char) (h : c.toNat = d.toNat) :
    isSeparator c = isSeparator d := by
  simp [isSeparator, h]

theorem sep_upChar (c : Char) : isSeparator (hexUpChar c) = isSeparator c := by
  by_cases h : 97 ≤ c.toNat ∧ c.toNat ≤ 102
  · have ht := upChar_toNat h
    simp only [isSeparator, ht]
    have h1 := h.1
    have h2 := h.2
    generalize c.toNat = v at h1 h2 ⊢
    interval_cases v <;> decide
  · rw [hexUpChar, if_neg h]

theorem sep_downChar (c : Char) : isSeparator (hexDownChar c) = isSeparator c := by
  by_cases h : 65 ≤ c.toNat ∧ c.toNat ≤ 70
  · have ht := downChar_toNat h
    simp only [isSeparator, ht]
    have h1 := h.1
    have h2 := h.2
    generalize c.toNat = v at h1 h2 ⊢
    interval_cases v <;> decide
  · rw [hexDownChar, if_neg h]

theorem map_id_of {α : Type} (f : α → α) (l : List α) (h : ∀ a ∈ l, f a = a) :
    l.map f = l := by
  induction l with
  | nil => rfl
  | cons a as ih => simp [h a (by simp), ih (fun x hx => h x (by simp [hx]))]

theorem utf8_upChar (c : Char) :
    utf8Enc ((hexUpChar c).toNat) = (utf8Enc c.toNat).map byteUp := by
  by_cases h : 97 ≤ c.toNat ∧ c.toNat ≤ 102
  · rw [upChar_toNat h]
    have h1 := h.1
    have h2 := h.2
    generalize c.toNat = v at h1 h2 ⊢
    interval_cases v <;> decide
  · rw [hexUpChar, if_neg h]
    by_cases hlt : c.toNat < 128
    · rw [utf8Enc_small hlt]
      have : byteUp c.toNat = c.toNat := by rw [byteUp, if_neg h]
      simp [this]
    · rw [map_id_of]
      intro b hb
      have := utf8Enc_ge (by omega) b hb
      rw [byteUp, if_neg (by omega)]

theorem utf8_downChar (c : Char) :
    utf8Enc ((hexDownChar c).toNat) = (utf8Enc c.toNat).map byteDown := by
  by_cases h : 65 ≤ c.toNat ∧ c.toNat ≤ 70
  · rw [downChar_toNat h]
    have h1 := h.1
    have h2 := h.2
    generalize c.toNat = v at h1 h2 ⊢
    interval_cases v <;> decide
  · rw [hexDownChar, if_neg h]
    by_cases hlt : c.toNat < 128
    · rw [utf8Enc_small hlt]
      have : byteDown c.toNat = c.toNat := by rw [byteDown, if_neg h]
      simp [this]
    · rw [map_id_of]
      intro b hb
      have := utf8Enc_ge (by omega) b hb
      rw [byteDown, if_neg (by omega)]

theorem stringBytes_map_up (l : List Char) :
    stringBytes (l.map hexUpChar) = (stringBytes l).map byteUp := by
  induction l with
  | nil => rfl
  | cons c cs ih =>
    simp [stringBytes, utf8EncodeChar, utf8_upChar c, ih, List.map_append]

theorem stringBytes_map_down (l : List Char) :
    stringBytes (l.map hexDownChar) = (stringBytes l).map byteDown := by
  induction l with
  | nil => rfl
  | cons c cs ih =>
    simp [stringBytes, utf8EncodeChar, utf8_downChar c, ih, List.map_append]

theorem hexVal_byteUp (b : Nat) : hexVal (byteUp b) = hexVal b := by
  by_cases h : 97 ≤ b ∧ b ≤ 102
  · have h1 : hexVal (b - 32) = some (b - 32 - 65 + 10) := by
      rw [hexVal, if_pos (by omega)]
    have h2 : hexVal b = some (b - 97 + 10) := by
      rw [hexVal, if_neg (by omega), if_pos h]
    have h3 : b - 32 - 65 + 10 = b - 97 + 10 := by omega
    rw [byteUp, if_pos h, h1, h2, h3]
  · rw [byteUp, if_neg h]

theorem hexVal_byteDown (b : Nat) : hexVal (byteDown b) = hexVal b := by
  by_cases h : 65 ≤ b ∧ b ≤ 70
  · have h1 : hexVal (b + 32) = some (b + 32 - 97 + 10) := by
      rw [hexVal, if_neg (by omega), if_pos (by omega)]
    have h2 : hexVal b = some (b - 65 + 10) := by
      rw [hexVal, if_pos h]
    have h3 : b + 32 - 97 + 10 = b - 65 + 10 := by omega
    rw [byteDown, if_pos h, h1, h2, h3]
  · rw [byteDown, if_neg h]

theorem byteUp_fix {b : Nat} (h : hexVal b = none) : byteUp b = b := by
  rw [byteUp, if_neg]
  intro hb
  rw [hexVal, if_neg (by omega), if_pos hb] at h
  exact Option.noConfusion h

theorem byteDown_fix {b : Nat} (h : hexVal b = none) : byteDown b = b := by
  rw [byteDown, if_neg]
  intro hb
  rw [hexVal, if_pos hb] at h
  exact Option.noConfusion h

theorem decodePairs_map {g : Nat → Nat} (hg : ∀ b, hexVal (g b) = hexVal b)
    (hid : ∀ b, hexVal b = none → g b = b)
    (bs : List Nat) : ∀ i, decodePairsFrom i (bs.map g) = decodePairsFrom i bs := by
  induction bs using twoStepList with
  | h0 => intro i; rfl
  | h1 a => intro i; rfl
  | h2 a b l ih =>
    intro i
    simp only [List.map_cons, decodePairsFrom, hg a, hg b]
    cases ha : hexVal a with
    | none => rw [hid a ha]
    | some hi =>
      cases hb : hexVal b with
      | none => rw [hid b hb]
      | some lo => rw [ih (i + 2)]

theorem hexDecode_map {g : Nat → Nat} (hg : ∀ b, hexVal (g b) = hexVal b)
    (hid : ∀ b, hexVal b = none → g b = b)
    (bs : List Nat) : hexDecode (bs.map g) = hexDecode bs := by
  unfold hexDecode
  rw [List.length_map, decodePairs_map hg hid]

/-! ### The constructor wrappers reflect the shared parser -/

theorem try48_error_iff {s : List Char} {e : Error} :
    EUI48.try_from s = .error e ↔ parseEUI 6 s = .error e := by
  unfold EUI48.try_from
  cases h : parseEUI 6 s <;> simp [Except.map]

theorem try64_error_iff {s : List Char} {e : Error} :
    EUI64.try_from s = .error e ↔ parseEUI 8 s = .error e := by
  unfold EUI64.try_from
  cases h : parseEUI 8 s <;> simp [Except.map]

/-! ### Stripping the dot format -/

theorem strip_dot6 {b0 b1 b2 b3 b4 b5 : Nat}
    (h : ∀ x ∈ [b0, b1, b2, b3, b4, b5], x < 256) :
    stripSeparators (((byteHex b0 ++ byteHex b1) ++ '.' :: (byteHex b2 ++ byteHex b3)) ++
      '.' :: (byteHex b4 ++ byteHex b5)) = hexChars [b0, b1, b2, b3, b4, b5] := by
  have hdot : ∀ l, stripSeparators ('.' :: l) = stripSeparators l :=
    fun l => strip_cons_sep (by decide) l
  simp only [strip_append, hdot, strip_byteHex (h b0 (by simp)),
    strip_byteHex (h b1 (by simp)), strip_byteHex (h b2 (by simp)),
    strip_byteHex (h b3 (by simp)), strip_byteHex (h b4 (by simp)),
    strip_byteHex (h b5 (by simp)), hexChars]
  simp [List.append_assoc]

theorem strip_dot8 {b0 b1 b2 b3 b4 b5 b6 b7 : Nat}
    (h : ∀ x ∈ [b0, b1, b2, b3, b4, b5, b6, b7], x < 256) :
    stripSeparators ((((byteHex b0 ++ byteHex b1) ++ '.' :: (byteHex b2 ++ byteHex b3)) ++
      '.' :: (byteHex b4 ++ byteHex b5)) ++ '.' :: (byteHex b6 ++ byteHex b7)) =
      hexChars [b0, b1, b2, b3, b4, b5, b6, b7] := by
  have hdot : ∀ l, stripSeparators ('.' :: l) = stripSeparators l :=
    fun l => strip_cons_sep (by decide) l
  simp only [strip_append, hdot, strip_byteHex (h b0 (by simp)),
    strip_byteHex (h b1 (by simp)), strip_byteHex (h b2 (by simp)),
    strip_byteHex (h b3 (by simp)), strip_byteHex (h b4 (by simp)),
    strip_byteHex (h b5 (by simp)), strip_byteHex (h b6 (by simp)),
    strip_byteHex (h b7 (by simp)), hexChars]
  simp [List.append_assoc]

/-! ## Claims -/

/-- C1: for every byte array of length 6 (resp. 8), parsing the canonical,
colon, or dot formatting of the address built from those bytes succeeds and
returns exactly those bytes: `EUI48::try_from(a.to_canonical_fmt()) == Ok(a)`
and likewise for `to_colon_fmt` and `to_dot_fmt`, and the same for `EUI64`. -/
theorem c1_roundtrip (b : List Nat) (hlt : ∀ x ∈ b, x < 256) :
    (b.length = 6 →
      EUI48.try_from (EUI.to_canonical_fmt b) = .ok ⟨b⟩ ∧
      EUI48.try_from (EUI.to_colon_fmt b) = .ok ⟨b⟩ ∧
      ∃ s, EUI.to_dot_fmt b = some s ∧ EUI48.try_from s = .ok ⟨b⟩) ∧
    (b.length = 8 →
      EUI64.try_from (EUI.to_canonical_fmt b) = .ok ⟨b⟩ ∧
      EUI64.try_from (EUI.to_colon_fmt b) = .ok ⟨b⟩ ∧
      ∃ s, EUI.to_dot_fmt b = some s ∧ EUI64.try_from s = .ok ⟨b⟩) := by
  constructor
  · intro h6
    refine ⟨?_, ?_, ?_⟩
    · have hp : parseEUI 6 (EUI.to_canonical_fmt b) = .ok b :=
        parse_of_strip hlt h6 (strip_canonical b hlt)
      simp [EUI48.try_from, hp, Except.map]
    · have hp : parseEUI 6 (EUI.to_colon_fmt b) = .ok b :=
        parse_of_strip hlt h6 (strip_colon b hlt)
      simp [EUI48.try_from, hp, Except.map]
    · obtain ⟨b0, b1, b2, b3, b4, b5, rfl⟩ := len6_ex b h6
      refine ⟨_, to_dot_six b0 b1 b2 b3 b4 b5, ?_⟩
      have hp : parseEUI 6 _ = .ok [b0, b1, b2, b3, b4, b5] :=
        parse_of_strip hlt h6 (strip_dot6 hlt)
      simp only [List.append_assoc, List.cons_append] at hp
      simp [EUI48.try_from, hp, Except.map]
  · intro h8
    refine ⟨?_, ?_, ?_⟩
    · have hp : parseEUI 8 (EUI.to_canonical_fmt b) = .ok b :=
        parse_of_strip hlt h8 (strip_canonical b hlt)
      simp [EUI64.try_from, hp, Except.map]
    · have hp : parseEUI 8 (EUI.to_colon_fmt b) = .ok b :=
        parse_of_strip hlt h8 (strip_colon b hlt)
      simp [EUI64.try_from, hp, Except.map]
    · obtain ⟨b0, b1, b2, b3, b4, b5, b6, b7, rfl⟩ := len8_ex b h8
      refine ⟨_, to_dot_eight b0 b1 b2 b3 b4 b5 b6 b7, ?_⟩
      have hp : parseEUI 8 _ = .ok [b0, b1, b2, b3, b4, b5, b6, b7] :=
        parse_of_strip hlt h8 (strip_dot8 hlt)
      simp only [List.append_assoc, List.cons_append] at hp
      simp [EUI64.try_from, hp, Except.map]

theorem c1_roundtrip_witness :
    EUI48.try_from (EUI.to_canonical_fmt [0x0A, 0x1B, 0x2C, 0x3D, 0x4E, 0x5F]) =
      .ok ⟨[0x0A, 0x1B, 0x2C, 0x3D, 0x4E, 0x5F]⟩ ∧
    EUI64.try_from (EUI.to_colon_fmt [0, 255, 10, 27, 44, 61, 78, 95]) =
      .ok ⟨[0, 255, 10, 27, 44, 61, 78, 95]⟩ :=
  ⟨((c1_roundtrip [0x0A, 0x1B, 0x2C, 0x3D, 0x4E, 0x5F] (by decide)).1 (by decide)).1,
   ((c1_roundtrip [0, 255, 10, 27, 44, 61, 78, 95] (by decide)).2 (by decide)).2.1⟩

/-- C2 counterexample: the input `"x"` strips to a string that contains a
non-hex character, so the claim as stated predicts the non-hex-character
error (its exception clause does not apply: the digits are not otherwise
valid hex).  The code returns the odd-length error instead, because
`hex::decode` checks the length parity before scanning any character. -/
theorem c2_counterexample :
    (∃ b ∈ stringBytes (stripSeparators ['x']), hexVal b = none) ∧
    EUI48.try_from ['x'] = .error .OddLength ∧
    EUI64.try_from ['x'] = .error .OddLength ∧
    Error.OddLength ≠ Error.InvalidHexCharacter :=
  ⟨by decide, rfl, rfl, by decide⟩

/-- C2 (amended): a non-hex character in the separator-stripped input is
reported as the non-hex-character error whenever the stripped byte count is
even; when the stripped byte count is odd, the odd-length error is returned
regardless of whether a non-hex character is present. -/
theorem c2_error_precedence (s : List Char) :
    ((stringBytes (stripSeparators s)).length % 2 = 0 →
      (∃ b ∈ stringBytes (stripSeparators s), hexVal b = none) →
      EUI48.try_from s = .error .InvalidHexCharacter ∧
      EUI64.try_from s = .error .InvalidHexCharacter) ∧
    ((stringBytes (stripSeparators s)).length % 2 = 1 →
      EUI48.try_from s = .error .OddLength ∧
      EUI64.try_from s = .error .OddLength) := by
  constructor
  · intro he hx
    exact ⟨try48_error_iff.mpr (parse_hexerr he hx), try64_error_iff.mpr (parse_hexerr he hx)⟩
  · intro ho
    exact ⟨try48_error_iff.mpr (parse_odd ho), try64_error_iff.mpr (parse_odd ho)⟩

theorem c2_error_precedence_witness :
    EUI48.try_from ("0x".toList) = .error .InvalidHexCharacter ∧
    EUI48.try_from ("0".toList) = .error .OddLength :=
  ⟨((c2_error_precedence ("0x".toList)).1 (by decide) (by decide)).1,
   ((c2_error_precedence ("0".toList)).2 (by decide)).1⟩

/-- C3: parsing a string gives exactly the same result as parsing the string
with every `'.'`, `':'`, `'-'` removed — separators in any position,
quantity or mixture do not affect the outcome — and the input is accepted
whenever the remaining hex digits decode to a byte sequence of the right
length. -/
theorem c3_separator_invariance (s : List Char) :
    EUI48.try_from s = EUI48.try_from (stripSeparators s) ∧
    EUI64.try_from s = EUI64.try_from (stripSeparators s) ∧
    ∀ bytes, hexDecode (stringBytes (stripSeparators s)) = .ok bytes →
      (bytes.length = 6 → EUI48.try_from s = .ok ⟨bytes⟩) ∧
      (bytes.length = 8 → EUI64.try_from s = .ok ⟨bytes⟩) := by
  have hp : ∀ n, parseEUI n (stripSeparators s) = parseEUI n s := by
    intro n
    unfold parseEUI
    rw [strip_idem]
  refine ⟨by simp only [EUI48.try_from, hp 6], by simp only [EUI64.try_from, hp 8], ?_⟩
  intro bytes hd
  constructor
  · intro h6
    have hq : parseEUI 6 s = .ok bytes := by
      rw [parse_of_decode_ok 6 hd]
      simp [h6]
    simp [EUI48.try_from, hq, Except.map]
  · intro h8
    have hq : parseEUI 8 s = .ok bytes := by
      rw [parse_of_decode_ok 8 hd]
      simp [h8]
    simp [EUI64.try_from, hq, Except.map]

theorem c3_separator_invariance_witness :
    EUI48.try_from ("--0A::1B-2C.3D.4E-5F--".toList) =
      EUI48.try_from (stripSeparators ("--0A::1B-2C.3D.4E-5F--".toList)) ∧
    EUI48.try_from ("--0A::1B-2C.3D.4E-5F--".toList) = .ok ⟨[10, 27, 44, 61, 78, 95]⟩ :=
  ⟨(c3_separator_invariance ("--0A::1B-2C.3D.4E-5F--".toList)).1,
   ((c3_separator_invariance ("--0A::1B-2C.3D.4E-5F--".toList)).2.2
      [10, 27, 44, 61, 78, 95] rfl).1 rfl⟩

/-- C4: parsing returns the invalid-string-length error exactly when the
separator-stripped input consists entirely of hex digits, has an even
character count, and decodes to a byte count (half the character count)
different from the target length — 6 for `EUI48`, 8 for `EUI64`; the length
check happens only after hex-decoding succeeds. -/
theorem c4_invalid_length_iff (s : List Char) :
    (EUI48.try_from s = .error .InvalidStringLength ↔
      (∀ c ∈ stripSeparators s, isHexChar c = true) ∧
      (stripSeparators s).length % 2 = 0 ∧ (stripSeparators s).length / 2 ≠ 6) ∧
    (EUI64.try_from s = .error .InvalidStringLength ↔
      (∀ c ∈ stripSeparators s, isHexChar c = true) ∧
      (stripSeparators s).length % 2 = 0 ∧ (stripSeparators s).length / 2 ≠ 8) := by
  have key : ∀ n, parseEUI n s = .error .InvalidStringLength ↔
      ((∀ c ∈ stripSeparators s, isHexChar c = true) ∧
        (stripSeparators s).length % 2 = 0 ∧ (stripSeparators s).length / 2 ≠ n) := by
    intro n
    rw [parse_isl_iff]
    constructor
    · rintro ⟨v, hd, hne⟩
      obtain ⟨hall, heven, hlen, _⟩ := hexDecode_ok_inv hd
      have hchars : ∀ c ∈ stripSeparators s, isHexChar c = true := allHex_chars _ hall
      have hascii : ∀ c ∈ stripSeparators s, c.toNat < 128 :=
        fun c hc => isHexChar_lt (hchars c hc)
      have hsb : stringBytes (stripSeparators s) = (stripSeparators s).map Char.toNat :=
        stringBytes_ascii _ hascii
      rw [hsb, List.length_map] at heven hlen
      rw [hlen] at hne
      exact ⟨hchars, heven, hne⟩
    · rintro ⟨hchars, heven, hne⟩
      have hascii : ∀ c ∈ stripSeparators s, c.toNat < 128 :=
        fun c hc => isHexChar_lt (hchars c hc)
      have hsb : stringBytes (stripSeparators s) = (stripSeparators s).map Char.toNat :=
        stringBytes_ascii _ hascii
      have hallbytes : ∀ b ∈ stringBytes (stripSeparators s), (hexVal b).isSome = true := by
        rw [hsb]
        intro b hb
        obtain ⟨c, hc, rfl⟩ := List.mem_map.mp hb
        exact hchars c hc
      have heven' : (stringBytes (stripSeparators s)).length % 2 = 0 := by
        rw [hsb, List.length_map]
        exact heven
      obtain ⟨v, hv, hlen, _⟩ := decodePairs_ok _ 0 hallbytes heven'
      refine ⟨v, ?_, ?_⟩
      · rw [hexDecode_even heven']
        exact hv
      · rw [hlen, hsb, List.length_map]
        exact hne
  exact ⟨by rw [try48_error_iff, key 6], by rw [try64_error_iff, key 8]⟩

theorem c4_invalid_length_iff_witness :
    EUI48.try_from ("0A1B".toList) = .error .InvalidStringLength :=
  (c4_invalid_length_iff ("0A1B".toList)).1.mpr ⟨by decide, by decide, by decide⟩

/-- C5: the format literals — bytes `[0x0A,0x1B,0x2C,0x3D,0x4E,0x5F]` render
as `"0A-1B-2C-3D-4E-5F"` (canonical), `"0A:1B:2C:3D:4E:5F"` (colon) and
`"0A1B.2C3D.4E5F"` (dot); the EUI-64 bytes `[0x00,0xFF,0x0A,0x1B,0x2C,0x3D,
0x4E,0x5F]` render in dot form as `"00FF.0A1B.2C3D.4E5F"`. -/
theorem c5_format_literals :
    EUI.to_canonical_fmt [0x0A, 0x1B, 0x2C, 0x3D, 0x4E, 0x5F] =
      ("0A-1B-2C-3D-4E-5F".toList) ∧
    EUI.to_colon_fmt [0x0A, 0x1B, 0x2C, 0x3D, 0x4E, 0x5F] =
      ("0A:1B:2C:3D:4E:5F".toList) ∧
    EUI.to_dot_fmt [0x0A, 0x1B, 0x2C, 0x3D, 0x4E, 0x5F] =
      some ("0A1B.2C3D.4E5F".toList) ∧
    EUI.to_dot_fmt [0x00, 0xFF, 0x0A, 0x1B, 0x2C, 0x3D, 0x4E, 0x5F] =
      some ("00FF.0A1B.2C3D.4E5F".toList) :=
  ⟨by decide, by decide, by decide, by decide⟩

set_option maxRecDepth 4000 in
/-- C6: the dot form groups the bytes into consecutive pairs in their
original order, renders each pair as four zero-padded upper-case hex digits,
and joins the groups with `'.'` — 3 groups for an EUI-48, 4 groups for an
EUI-64, with no leading or trailing separator; every character of a byte
rendering is an upper-case hex digit. -/
theorem c6_dot_structure :
    (∀ b0 b1 b2 b3 b4 b5 : Nat,
      EUI.to_dot_fmt [b0, b1, b2, b3, b4, b5] =
        some (byteHex b0 ++ byteHex b1 ++
          '.' :: (byteHex b2 ++ byteHex b3 ++ '.' :: (byteHex b4 ++ byteHex b5)))) ∧
    (∀ b0 b1 b2 b3 b4 b5 b6 b7 : Nat,
      EUI.to_dot_fmt [b0, b1, b2, b3, b4, b5, b6, b7] =
        some (byteHex b0 ++ byteHex b1 ++
          '.' :: (byteHex b2 ++ byteHex b3 ++
            '.' :: (byteHex b4 ++ byteHex b5 ++ '.' :: (byteHex b6 ++ byteHex b7))))) ∧
    (∀ b < 256, ∀ c ∈ byteHex b, c ∈ ("0123456789ABCDEF".toList)) := by
  refine ⟨?_, ?_, by decide⟩
  · intro b0 b1 b2 b3 b4 b5
    rw [to_dot_six]
    simp [List.append_assoc]
  · intro b0 b1 b2 b3 b4 b5 b6 b7
    rw [to_dot_eight]
    simp [List.append_assoc]

theorem c6_dot_structure_witness :
    EUI.to_dot_fmt [1, 2, 3, 4, 5, 6] =
      some (byteHex 1 ++ byteHex 2 ++
        '.' :: (byteHex 3 ++ byteHex 4 ++ '.' :: (byteHex 5 ++ byteHex 6))) ∧
    10 < 256 ∧ ∀ c ∈ byteHex 10, c ∈ ("0123456789ABCDEF".toList) :=
  ⟨c6_dot_structure.1 1 2 3 4 5 6, by decide, c6_dot_structure.2.2 10 (by decide)⟩

/-- C7: parsing is case-insensitive on hex digits — replacing every
lowercase hex letter `a`-`f` by its uppercase counterpart, or every
uppercase `A`-`F` by its lowercase counterpart, leaves the result of both
`EUI48::try_from` and `EUI64::try_from` unchanged. -/
theorem c7_case_insensitive (s : List Char) :
    EUI48.try_from (s.map hexUpChar) = EUI48.try_from s ∧
    EUI64.try_from (s.map hexUpChar) = EUI64.try_from s ∧
    EUI48.try_from (s.map hexDownChar) = EUI48.try_from s ∧
    EUI64.try_from (s.map hexDownChar) = EUI64.try_from s := by
  have hup : ∀ n, parseEUI n (s.map hexUpChar) = parseEUI n s := by
    intro n
    unfold parseEUI
    rw [strip_map sep_upChar, stringBytes_map_up,
      hexDecode_map hexVal_byteUp (fun b hb => byteUp_fix hb)]
  have hdown : ∀ n, parseEUI n (s.map hexDownChar) = parseEUI n s := by
    intro n
    unfold parseEUI
    rw [strip_map sep_downChar, stringBytes_map_down,
      hexDecode_map hexVal_byteDown (fun b hb => byteDown_fix hb)]
  exact ⟨by simp only [EUI48.try_from, hup 6], by simp only [EUI64.try_from, hup 8],
    by simp only [EUI48.try_from, hdown 6], by simp only [EUI64.try_from, hdown 8]⟩

/-- C8: a string whose stripped form decodes to exactly 6 valid bytes fails
with the invalid-string-length error when parsed as `EUI64`, and a string
decoding to exactly 8 valid bytes fails the same way when parsed as
`EUI48`. -/
theorem c8_type_isolation (s : List Char) (bytes : List Nat)
    (hd : hexDecode (stringBytes (stripSeparators s)) = .ok bytes) :
    (bytes.length = 6 → EUI64.try_from s = .error .InvalidStringLength) ∧
    (bytes.length = 8 → EUI48.try_from s = .error .InvalidStringLength) := by
  constructor
  · intro h6
    rw [try64_error_iff, parse_of_decode_ok 8 hd]
    simp [h6]
  · intro h8
    rw [try48_error_iff, parse_of_decode_ok 6 hd]
    simp [h8]

theorem c8_type_isolation_witness :
    EUI64.try_from ("0A-1B-2C-3D-4E-5F".toList) = .error .InvalidStringLength ∧
    EUI48.try_from ("00-FF-0A-1B-2C-3D-4E-5F".toList) = .error .InvalidStringLength :=
  ⟨(c8_type_isolation ("0A-1B-2C-3D-4E-5F".toList) [10, 27, 44, 61, 78, 95] rfl).1 rfl,
   (c8_type_isolation ("00-FF-0A-1B-2C-3D-4E-5F".toList)
      [0, 255, 10, 27, 44, 61, 78, 95] rfl).2 rfl⟩

/-- C9: the three formatting operations are total on every EUI-48 and
EUI-64.  Canonical and colon formatting are total functions of the byte list
by construction; the dot form's chunk indexing (the access to the second
element of each 2-byte chunk) is in bounds for every address because both
lengths 6 and 8 are even, so `to_dot_fmt` always returns a string. -/
theorem c9_dot_total (l : List Nat) (h : l.length = 6 ∨ l.length = 8) :
    (EUI.to_dot_fmt l).isSome = true := by
  rcases h with h | h
  · obtain ⟨b0, b1, b2, b3, b4, b5, rfl⟩ := len6_ex l h
    rw [to_dot_six]
    rfl
  · obtain ⟨b0, b1, b2, b3, b4, b5, b6, b7, rfl⟩ := len8_ex l h
    rw [to_dot_eight]
    rfl

theorem c9_dot_total_witness : (EUI.to_dot_fmt [1, 2, 3, 4, 5, 6]).isSome = true :=
  c9_dot_total [1, 2, 3, 4, 5, 6] (Or.inl rfl)

/-- C10: the empty string, and any string made only of the separator
characters `'.'`, `':'`, `'-'`, strips to the empty string, decodes to 0
bytes, and therefore fails for both types with the invalid-string-length
error — never with the non-hex-character or odd-length error. -/
theorem c10_separators_only (s : List Char) (h : ∀ c ∈ s, isSeparator c = true) :
    EUI48.try_from s = .error .InvalidStringLength ∧
    EUI64.try_from s = .error .InvalidStringLength := by
  have hstrip : stripSeparators s = [] := by
    rw [stripSeparators, List.filter_eq_nil_iff]
    intro c hc
    simp [h c hc]
  have hd : hexDecode (stringBytes (stripSeparators s)) = .ok [] := by
    rw [hstrip]
    rfl
  constructor
  · rw [try48_error_iff, parse_of_decode_ok 6 hd]
    simp
  · rw [try64_error_iff, parse_of_decode_ok 8 hd]
    simp

theorem c10_separators_only_witness :
    EUI48.try_from (".:-".toList) = .error .InvalidStringLength ∧
    EUI64.try_from [] = .error .InvalidStringLength :=
  ⟨(c10_separators_only (".:-".toList) (by decide)).1,
   (c10_separators_only [] (by decide)).2⟩
